import Mathlib

/-!
Shallow embedding of the force-curve feature-extraction pipeline of
`rollup-plugin-force-curve.ts` (the final version of the plugin, which is the
authority for all claims below).

Conventions of the embedding:
* JavaScript numbers are modelled by exact rationals.  The pipeline can produce
  `NaN` (e.g. `0/0`) and `undefined` (out-of-range array reads); both behave
  identically in every operation this code performs on them (arithmetic yields
  `NaN`, comparisons yield `false`, `d3.mean`/`d3.maxIndex` skip them), so both
  are modelled by `none` in `JVal := Option ℚ`.  Division of a defined value by
  `0` is also mapped to `none`; the pipeline only divides by quantities it has
  made non-zero (deduplicated x-gaps, guarded segment lengths, the constant
  blur weight), so this choice is only visible on inputs that are outside every
  guarded path.
* Displacements (`x` values) stay plain rationals: every `x` flowing through the
  pipeline originates from the CSV filter `row[0] >= 0` (which discards `NaN`)
  or from the arithmetic grid of `quantize`.
* A thrown JavaScript `TypeError` is modelled by `Except.error ()`.
-/

attribute [local semireducible] Rat.add Rat.sub Rat.mul Rat.inv Nat.gcd

/-- Decidable equality on `Except`, so concrete pipeline runs can be settled
by `decide`. -/
instance exceptDecEq [DecidableEq ε] [DecidableEq α] : DecidableEq (Except ε α) := fun a b =>
  match a, b with
  | .ok x, .ok y =>
    if h : x = y then .isTrue (by rw [h]) else .isFalse (fun hc => h (Except.ok.inj hc))
  | .error x, .error y =>
    if h : x = y then .isTrue (by rw [h]) else .isFalse (fun hc => h (Except.error.inj hc))
  | .ok _, .error _ => .isFalse (fun hc => Except.noConfusion hc)
  | .error _, .ok _ => .isFalse (fun hc => Except.noConfusion hc)

namespace ForceCurves

/-- A JavaScript number: `some q` is the finite value `q`, `none` is NaN/undefined. -/
abbrev JVal := Option ℚ

/-- A sample point `[displacement, force]`.  The force is a `JVal` because the
second derivative stage feeds an `undefined` array slot back into the pipeline. -/
abbrev JPoint := ℚ × JVal

/-- `ZERO : Point = [0, 0]` from the source. -/
def ZERO : JPoint := (0, some 0)

def jadd : JVal → JVal → JVal
  | some a, some b => some (a + b)
  | _, _ => none

def jsub : JVal → JVal → JVal
  | some a, some b => some (a - b)
  | _, _ => none

def jmul : JVal → JVal → JVal
  | some a, some b => some (a * b)
  | _, _ => none

/-- JS division; `x / 0` (`±Infinity` or `NaN` in JS) is collapsed to `none`;
see the embedding notes above. -/
def jdiv : JVal → JVal → JVal
  | some a, some b => if b = 0 then none else some (a / b)
  | _, _ => none

/-- `Math.min`; NaN-contagious like JS. -/
def jmin : JVal → JVal → JVal
  | some a, some b => some (min a b)
  | _, _ => none

/-- JS `<`: false whenever an operand is NaN/undefined. -/
def jlt : JVal → JVal → Bool
  | some a, some b => decide (a < b)
  | _, _ => false

/-- JS `>=`: false whenever an operand is NaN/undefined. -/
def jge : JVal → JVal → Bool
  | some a, some b => decide (b ≤ a)
  | _, _ => false

/-- JS truthiness of a number: `0`, `-0` and `NaN` are falsy. -/
def jtruthy : JVal → Bool
  | some a => decide (a ≠ 0)
  | none => false

/-- JS `!== 0` on a number (note: `NaN !== 0` is `true`). -/
def jne0 : JVal → Bool
  | some a => decide (a ≠ 0)
  | none => true

/-- `d3.mean` over already-extracted values: ignores `undefined`/`NaN` entries,
returns `undefined` (here `none`) when no entry is a plain number. -/
def jmean (l : List JVal) : Option ℚ :=
  let vs := l.filterMap id
  if vs.isEmpty then none else some (vs.sum / vs.length)

/-- Accumulator loop of `d3.maxIndex`: the running best `(index, value)` is
replaced only on strict improvement, so the first occurrence of the maximum
wins; `none` accessor values (null/NaN) are skipped. -/
def maxIndexGo (f : α → JVal) : List α → Nat → Option (Nat × ℚ) → Option (Nat × ℚ)
  | [], _, best => best
  | a :: as, i, best =>
    match f a, best with
    | some v, none => maxIndexGo f as (i + 1) (some (i, v))
    | some v, some (bi, bv) =>
      if bv < v then maxIndexGo f as (i + 1) (some (i, v))
      else maxIndexGo f as (i + 1) (some (bi, bv))
    | none, b => maxIndexGo f as (i + 1) b

/-- `d3.maxIndex(data, accessor)`; `none` plays the role of the JS result `-1`. -/
def maxIndexJ (l : List α) (f : α → JVal) : Option Nat :=
  (maxIndexGo f l 0 none).map (·.1)

/-- `maxElement` from the source: `data.at(maxIndex(data, accessor))`.
When `maxIndex` is `-1` (empty data, or no accessor value was a number),
`at(-1)` returns the last element, or `undefined` on empty data. -/
def maxElementJ (l : List α) (f : α → JVal) : Option α :=
  match maxIndexJ l f with
  | some i => l.get? i
  | none => l.getLast?

/-- First-occurrence duplicate removal, the key order produced by `d3.groups`
(an `InternMap` keyed in first-seen order). -/
def groupKeys : List ℚ → List ℚ
  | [] => []
  | x :: xs => x :: (groupKeys xs).filter (fun k => k ≠ x)

/-- `d3.groups(points, p => p[0])`: buckets in first-occurrence key order, each
bucket keeping the original order of its members. -/
def groupsByX (l : List JPoint) : List (ℚ × List JPoint) :=
  (groupKeys (l.map (·.1))).map (fun k => (k, l.filter (fun p => p.1 = k)))

/-- `d3.pairs(l, f)` specialised to consecutive pairs of a list. -/
def pairsConsec (l : List α) : List (α × α) := l.zip l.tail

/-- One pass of `d3.blur`'s fractional box filter at radius `0.1`
(`radius0 = 0`, `t = 0.1`, `w = 2·0.1 + 1 = 6/5`), edges clamped:
`T[i] = (S[i] + t·(S[max(0,i-1)] + S[min(n-1,i+1)])) / w`. -/
def blurPass (S : List JVal) : List JVal :=
  (List.range S.length).map (fun i =>
    jdiv
      (jadd (S.getD i none)
        (jmul (some (1 / 10))
          (jadd (S.getD (i - 1) none) (S.getD (min (S.length - 1) (i + 1)) none))))
      (some (6 / 5)))

/-- `d3.blur(values, 0.1)`: three passes of the box filter (the radius is
non-zero and a zero-length array returns immediately, which the pure
composition already handles). -/
def blur3 (S : List JVal) : List JVal := blurPass (blurPass (blurPass S))

/-- Loop body of `findLocalMaxima`, recursing over the consecutive pairs
`(points[i], points[i+1])`; the first component of the state is the pending
candidate `max`. -/
def lmaxAux : Option JPoint → List (JPoint × JPoint) → List JPoint
  | _, [] => []
  | cand, (a, b) :: rest =>
    if jlt a.2 b.2 then lmaxAux (some b) rest
    else
      match cand with
      | some m => if jlt b.2 a.2 then m :: lmaxAux none rest else lmaxAux (some m) rest
      | none => lmaxAux none rest

/-- `findLocalMaxima` from the source. -/
def findLocalMaxima (points : List JPoint) : List JPoint :=
  lmaxAux none (pairsConsec points)

/-- Loop body of `findLocalMinima`; note the extra truthiness test
`forces[i + 1] < forces[i] && forces[i + 1]` on the candidate branch. -/
def lminAux : Option JPoint → List (JPoint × JPoint) → List JPoint
  | _, [] => []
  | cand, (a, b) :: rest =>
    if jlt b.2 a.2 && jtruthy b.2 then lminAux (some b) rest
    else
      match cand with
      | some m => if jlt a.2 b.2 then m :: lminAux none rest else lminAux (some m) rest
      | none => lminAux none rest

/-- `findLocalMinima` from the source. -/
def findLocalMinima (points : List JPoint) : List JPoint :=
  lminAux none (pairsConsec points)

/-- `partitionStrokes`: split at `maxIndex(points, p => p[0])`.  When the index
is `-1` (only possible on an empty list here, since every `x` is a plain
rational), JS `slice(0, -1)`/`slice(-1)` drop/keep the last element. -/
def partitionStrokes (points : List JPoint) : List JPoint × List JPoint :=
  match maxIndexJ points (fun p => some p.1) with
  | some i => (points.take i, points.drop i)
  | none => (points.dropLast, points.drop (points.length - 1))

/-- `getSqSegDist` from simplify-js: squared distance from `p` to the segment
`p1p2`.  The division is only performed under the guard `dx !== 0 || dy !== 0`
(with `NaN !== 0` being true), so a defined denominator there is non-zero. -/
def getSqSegDist (p p1 p2 : JPoint) : JVal :=
  let x := p1.1
  let y := p1.2
  let dx := p2.1 - x
  let dy := jsub p2.2 y
  let xy : ℚ × JVal :=
    if dx ≠ 0 ∨ jne0 dy then
      let t := jdiv (jadd (some ((p.1 - x) * dx)) (jmul (jsub p.2 y) dy))
                    (jadd (some (dx * dx)) (jmul dy dy))
      match t with
      | some tv =>
        if 1 < tv then (p2.1, p2.2)
        else if 0 < tv then (x + dx * tv, jadd y (jmul dy (some tv)))
        else (x, y)
      | none => (x, y)
    else (x, y)
  jadd (some ((p.1 - xy.1) * (p.1 - xy.1))) (jmul (jsub p.2 xy.2) (jsub p.2 xy.2))

/-- The scan of `simplifyDPStep` over `i = first+1 .. last-1`: running maximum
squared distance (initialised to the squared tolerance) and its index, updated
only on strict improvement (NaN distances never update). -/
def dpFindMaxGo (pts : List JPoint) (pF pL : JPoint) :
    List Nat → ℚ → Option Nat → Option Nat × ℚ
  | [], best, index => (index, best)
  | i :: rest, best, index =>
    match getSqSegDist (pts.getD i ZERO) pF pL with
    | some d =>
      if best < d then dpFindMaxGo pts pF pL rest d (some i)
      else dpFindMaxGo pts pF pL rest best index
    | none => dpFindMaxGo pts pF pL rest best index

/-- `simplifyDPStep` from simplify-js, with an explicit recursion fuel:
each recursive call strictly decreases `last - first` (the found index lies
strictly between `first` and `last`), so any `fuel ≥ last - first` computes the
exact recursion; callers pass `fuel = pts.length`. -/
def dpStep (pts : List JPoint) (sqTol : ℚ) : Nat → Nat → Nat → List JPoint
  | 0, _, _ => []
  | fuel + 1, first, last =>
    match dpFindMaxGo pts (pts.getD first ZERO) (pts.getD last ZERO)
        (List.range' (first + 1) (last - first - 1)) sqTol none with
    | (some i, best) =>
      if sqTol < best then
        (if first + 1 < i then dpStep pts sqTol fuel first i else []) ++
          pts.getD i ZERO ::
            (if i + 1 < last then dpStep pts sqTol fuel i last else [])
      else []
    | (none, _) => []

/-- `simplifyDouglasPeucker` from simplify-js (callers guarantee ≥ 3 points). -/
def simplifyDouglasPeucker (pts : List JPoint) (sqTol : ℚ) : List JPoint :=
  pts.getD 0 ZERO ::
    (dpStep pts sqTol pts.length 0 (pts.length - 1) ++ [pts.getD (pts.length - 1) ZERO])

/-- `simplifyPoints` from the source: `simplify(xy, tolerance, true)` — the
`highestQuality = true` path of simplify-js runs only Douglas–Peucker with
squared tolerance, returning inputs of at most two points unchanged.  The
`Point ↔ {x, y}` conversions are the identity in this model.  The source's
default tolerance is `0.01`. -/
def simplifyPoints (points : List JPoint) (tolerance : ℚ) : List JPoint :=
  if points.length ≤ 2 then points
  else simplifyDouglasPeucker points (tolerance * tolerance)

/-- `dedupePoints` from the source: average the forces of each displacement
group (`d3.mean` skips NaN/undefined forces and `?? 0` turns an empty mean
into `0`, so every output force is a plain number). -/
def dedupePoints (points : List JPoint) : List JPoint :=
  (groupsByX points).map (fun g => (g.1, some ((jmean (g.2.map (·.2))).getD 0)))

/-- `getDerivative` from the source.  Note two quirks that the claims probe:
the result of `d3.pairs` has one entry fewer than the deduplicated points, so
the final `points.map((p, i) => [p[0], result[i]])` pairs the last `x` with
`undefined`; and the leading deduplication turns a group whose forces are all
NaN/undefined into force `0` via `mean(...) ?? 0`. -/
def getDerivative (points : List JPoint) : List JPoint :=
  let pts := (groupsByX points).map (fun g => (g.1, some ((jmean (g.2.map (·.2))).getD 0)))
  let result := blur3 ((pairsConsec pts).map
    (fun ab => jdiv (jsub ab.2.2 ab.1.2) (some (ab.2.1 - ab.1.1))))
  pts.enum.map (fun ip => (ip.2.1, (result.get? ip.1).getD none))

/-- `d3.range(start, stop, step)`: `max(0, ⌈(stop - start) / step⌉)` values
`start + i·step`.  (JS would throw on `step = 0`; the model returns `[]`,
and the pipeline only uses positive constant steps.) -/
def rangeD (start stop step : ℚ) : List ℚ :=
  (List.range (max 0 ⌈(stop - start) / step⌉).toNat).map (fun (i : ℕ) => start + (i : ℚ) * step)

/-- The `while (i < points.length - 2 && x > points[i + 1][0]) i++` advance of
`quantize`, with fuel `points.length` (the index grows at most to
`points.length - 2`). -/
def qAdvance (points : List JPoint) (x : ℚ) : Nat → Nat → Nat
  | 0, i => i
  | fuel + 1, i =>
    if i < points.length - 2 ∧ (points.getD (i + 1) ZERO).1 < x then
      qAdvance points x fuel (i + 1)
    else i

/-- `d3.interpolateNumber(a, b)(t) = a·(1 - t) + b·t`. -/
def jinterp (a b t : JVal) : JVal :=
  jadd (jmul a (jsub (some 1) t)) (jmul b t)

/-- The grid loop of `quantize`, threading the segment cursor `i`. -/
def qLoop (points : List JPoint) : List ℚ → Nat → List JPoint
  | [], _ => []
  | x :: xs, i =>
    let i1 := qAdvance points x points.length i
    let p0 := points.getD i1 ZERO
    let p1 := points.getD (i1 + 1) ZERO
    let t := jdiv (some (x - p0.1)) (some (p1.1 - p0.1))
    (x, jinterp p0.2 p1.2 t) :: qLoop points xs i1

/-- `quantize` from the source (the source's default step is `0.02`; the
pipeline calls it with step `0.01`). -/
def quantize (points : List JPoint) (step : ℚ) : List JPoint :=
  if points.length < 2 then points
  else
    let start := ((points.head?).map (·.1)).getD 0
    let stop := ((points.getLast?).map (·.1)).getD 0
    qLoop points (rangeD start (stop + step / 2) step) 0

/-- `TACTILE_MIN_DISTANCE_FROM_BOTTOM_OUT = 0.5`. -/
def TACTILE_MIN_DISTANCE_FROM_BOTTOM_OUT : ℚ := 1 / 2

/-- `minTactileForce(f) = Math.min(f * 0.2, 5)`. -/
def minTactileForce (bottomOutForce : JVal) : JVal :=
  jmin (jmul bottomOutForce (some (1 / 5))) (some 5)

/-- `ForceCurveMetadata` from the source. -/
structure ForceCurveMetadata where
  bottomOut : JPoint
  tactileMax : JPoint
  tactileMin : JPoint
  isTactile : Bool
deriving DecidableEq

/-- `bottomOutDisplacement` inside `getMetadata`:
`findLocalMaxima(accel).at(-1)?.[0] ?? 0` over the simplified second
derivative of the re-simplified, re-sampled downstroke. -/
def bottomOutDisplacement (downstroke : List JPoint) : ℚ :=
  let simplified := quantize (simplifyPoints downstroke (1 / 5)) (1 / 100)
  let velocity := getDerivative simplified
  let accel := simplifyPoints (getDerivative velocity) (1 / 10)
  (((findLocalMaxima accel).getLast?).map (·.1)).getD 0

/-- `bottomOut` inside `getMetadata`:
`downstroke.find((p) => p[0] >= bottomOutDisplacement) ?? ZERO`. -/
def bottomOutPoint (downstroke : List JPoint) : JPoint :=
  (downstroke.find? (fun p => decide (bottomOutDisplacement downstroke ≤ p.1))).getD ZERO

/-- `maxima` inside `getMetadata`: downstroke local maxima strictly more than
`TACTILE_MIN_DISTANCE_FROM_BOTTOM_OUT` before the bottom-out displacement. -/
def tacMaxima (downstroke : List JPoint) : List JPoint :=
  (findLocalMaxima downstroke).filter
    (fun p => decide (p.1 < bottomOutDisplacement downstroke - TACTILE_MIN_DISTANCE_FROM_BOTTOM_OUT))

/-- `maximaMinimaPairs` inside `getMetadata`: each candidate maximum paired
with `maxElement(minimaAfter, p => max[1] - p[1])`, which is `undefined`
(`none`) when no local minimum lies after the maximum. -/
def tacPairs (downstroke : List JPoint) : List (JPoint × Option JPoint) :=
  (tacMaxima downstroke).map (fun mx =>
    (mx, maxElementJ ((findLocalMinima downstroke).filter (fun p => decide (mx.1 < p.1)))
          (fun p => jsub mx.2 p.2)))

/-- `getMetadata` from the source.  The accessor of the outer `maxElement`
evaluates `pair[1][1]` on every pair, so if any pair's minimum slot is
`undefined` the JS code throws a `TypeError` — modelled by `Except.error ()`.
Otherwise `maxElement(...) ?? [ZERO, ZERO]` selects the tactile pair. -/
def getMetadata (downstroke : List JPoint) : Except Unit ForceCurveMetadata :=
  if (tacPairs downstroke).all (fun pr => pr.2.isSome) then
    let prs := (tacPairs downstroke).map (fun pr => (pr.1, pr.2.getD ZERO))
    let best := (maxElementJ prs (fun pr => jsub pr.1.2 pr.2.2)).getD (ZERO, ZERO)
    .ok { bottomOut := bottomOutPoint downstroke
          tactileMax := best.1
          tactileMin := best.2
          isTactile := jge (jsub best.1.2 best.2.2)
                         (minTactileForce (bottomOutPoint downstroke).2) }
  else .error ()

/-- `HEADER_LINES = 5`. -/
def HEADER_LINES : Nat := 5

/-- A CSV line as seen by `csvParse` after the header-line skip.  Each field
is abstracted by the outcome of `parseFloat` on its text: `none` means the
column is absent from the row (`row.X` is `undefined`), `some none` means the
field text does not parse (`parseFloat` gives `NaN`), `some (some q)` means it
parses to `q`. -/
structure CsvRow where
  Displacement : Option JVal
  Force : Option JVal
deriving DecidableEq

/-- `[parseFloat(row.Displacement ?? '0'), parseFloat(row.Force ?? '0')]`:
a missing column falls back to the text `'0'`, which parses to `0`. -/
def rowPoint (row : CsvRow) : JVal × JVal :=
  (row.Displacement.getD (some 0), row.Force.getD (some 0))

/-- `parseCsv` from the source: drop `HEADER_LINES` lines, let `csvParse`
consume the next line as the column-name row, map the remaining rows through
`parseFloat`, and keep only rows with `row[0] >= 0` (which discards a NaN
displacement, since NaN comparisons are false).  Kept rows therefore carry a
plain rational displacement and are returned as `JPoint`s. -/
def parseCsv (lines : List CsvRow) : List JPoint :=
  let rows := match lines.drop HEADER_LINES with
    | [] => []
    | _hdr :: dataLines => dataLines.map rowPoint
  rows.filterMap (fun r =>
    match r.1 with
    | some x => if 0 ≤ x then some ((x, r.2) : JPoint) else none
    | none => none)

/-! ### Helper lemmas: `d3.maxIndex` selects the first occurrence of the maximum -/

/-- Reference recursion for "first index of the maximum value" of a list of
rationals, used to characterise `maxIndexJ` on total accessors. -/
def firstArgmaxQ : List ℚ → Option (Nat × ℚ)
  | [] => none
  | v :: vs =>
    match firstArgmaxQ vs with
    | none => some (0, v)
    | some (j, w) => if v < w then some (j + 1, w) else some (0, v)

/-- How `maxIndexGo` combines an accumulator with the result on the rest. -/
def argmaxCombine (i0 : Nat) : Option (Nat × ℚ) → Option (Nat × ℚ) → Option (Nat × ℚ)
  | none, none => none
  | none, some (j, w) => some (i0 + j, w)
  | some b, none => some b
  | some (bi, bv), some (j, w) => if bv < w then some (i0 + j, w) else some (bi, bv)

theorem maxIndexGo_eq_combine (g : α → ℚ) (l : List α) :
    ∀ (i0 : Nat) (best : Option (Nat × ℚ)),
      maxIndexGo (fun a => some (g a)) l i0 best =
        argmaxCombine i0 best (firstArgmaxQ (l.map g)) := by
  induction l with
  | nil =>
    intro i0 best
    cases best with
    | none => rfl
    | some b => rfl
  | cons a as ih =>
    intro i0 best
    cases best with
    | none =>
      simp only [maxIndexGo, List.map_cons, firstArgmaxQ, ih]
      cases h : firstArgmaxQ (as.map g) with
      | none => simp [argmaxCombine]
      | some jw =>
        obtain ⟨j, w⟩ := jw
        by_cases hlt : g a < w <;>
          simp [argmaxCombine, hlt] <;> omega
    | some b =>
      obtain ⟨bi, bv⟩ := b
      simp only [maxIndexGo, List.map_cons, firstArgmaxQ, ih]
      cases h : firstArgmaxQ (as.map g) with
      | none =>
        by_cases hbv : bv < g a <;> simp [argmaxCombine, hbv]
      | some jw =>
        obtain ⟨j, w⟩ := jw
        by_cases hbv : bv < g a
        · by_cases haw : g a < w
          · have hbw : bv < w := lt_trans hbv haw
            simp [argmaxCombine, hbv, haw, hbw] <;> omega
          · simp [argmaxCombine, hbv, haw]
        · by_cases haw : g a < w
          · by_cases hbw : bv < w <;>
              simp [argmaxCombine, hbv, haw, hbw] <;> omega
          · have hbw : ¬ bv < w := fun hc => hbv (lt_of_lt_of_le hc (not_lt.mp haw))
            simp [argmaxCombine, hbv, haw, hbw]

theorem firstArgmaxQ_none_iff (l : List ℚ) : firstArgmaxQ l = none ↔ l = [] := by
  cases l with
  | nil => simp [firstArgmaxQ]
  | cons v vs =>
    simp only [firstArgmaxQ]
    cases h : firstArgmaxQ vs with
    | none => simp
    | some jw =>
      obtain ⟨j, w⟩ := jw
      dsimp only
      split <;> simp

theorem firstArgmaxQ_spec (l : List ℚ) :
    ∀ j w, firstArgmaxQ l = some (j, w) →
      j < l.length ∧ l.getD j 0 = w ∧
        (∀ k, k < l.length → l.getD k 0 ≤ w) ∧ (∀ k, k < j → l.getD k 0 < w) := by
  induction l with
  | nil => intro j w h; simp [firstArgmaxQ] at h
  | cons v vs ih =>
    intro j w h
    simp only [firstArgmaxQ] at h
    cases hrec : firstArgmaxQ vs with
    | none =>
      rw [hrec] at h
      dsimp only at h
      simp only [Option.some.injEq, Prod.mk.injEq] at h
      obtain ⟨rfl, rfl⟩ := h
      have hvs : vs = [] := (firstArgmaxQ_none_iff vs).mp hrec
      subst hvs
      refine ⟨by simp, by simp, ?_, by omega⟩
      intro k hk
      simp only [List.length_cons, List.length_nil] at hk
      have hk0 : k = 0 := by omega
      subst hk0
      simp
    | some jw =>
      obtain ⟨j1, w1⟩ := jw
      rw [hrec] at h
      dsimp only at h
      obtain ⟨hj1, hval, hub, hfst⟩ := ih j1 w1 hrec
      by_cases hlt : v < w1
      · rw [if_pos hlt] at h
        simp only [Option.some.injEq, Prod.mk.injEq] at h
        obtain ⟨rfl, rfl⟩ := h
        refine ⟨by simpa using hj1, by simpa using hval, ?_, ?_⟩
        · intro k hk
          cases k with
          | zero => simpa using le_of_lt hlt
          | succ k' =>
            simp only [List.getD_cons_succ]
            exact hub k' (by simp only [List.length_cons] at hk; omega)
        · intro k hk
          cases k with
          | zero => simpa using hlt
          | succ k' =>
            simp only [List.getD_cons_succ]
            exact hfst k' (by omega)
      · rw [if_neg hlt] at h
        simp only [Option.some.injEq, Prod.mk.injEq] at h
        obtain ⟨rfl, rfl⟩ := h
        refine ⟨by simp, by simp, ?_, by omega⟩
        intro k hk
        cases k with
        | zero => simp
        | succ k' =>
          simp only [List.getD_cons_succ, List.getD_cons_zero]
          exact le_trans (hub k' (by simp only [List.length_cons] at hk; omega)) (not_lt.mp hlt)

theorem maxIndexJ_eq_firstArgmax (g : α → ℚ) (l : List α) :
    maxIndexJ l (fun a => some (g a)) = (firstArgmaxQ (l.map g)).map (·.1) := by
  unfold maxIndexJ
  rw [maxIndexGo_eq_combine]
  cases h : firstArgmaxQ (l.map g) with
  | none => rfl
  | some jw => obtain ⟨j, w⟩ := jw; simp [argmaxCombine]

/-- C6: concatenating the two strokes returned by the partitioner rebuilds the
input exactly: no point is dropped, duplicated or reordered. -/
theorem claim_C6_partition_concat (points : List JPoint) :
    (partitionStrokes points).1 ++ (partitionStrokes points).2 = points := by
  unfold partitionStrokes
  cases h : maxIndexJ points (fun p => some p.1) with
  | some i => simpa using List.take_append_drop i points
  | none =>
    simpa [List.dropLast_eq_take] using List.take_append_drop (points.length - 1) points

theorem getD_map_fst (points : List JPoint) :
    ∀ k, k < points.length → (points.map (·.1)).getD k 0 = (points.getD k ZERO).1 := by
  induction points with
  | nil => intro k hk; simp at hk
  | cons p ps ih =>
    intro k hk
    cases k with
    | zero => simp
    | succ k' =>
      simp only [List.map_cons, List.getD_cons_succ]
      exact ih k' (by simp only [List.length_cons] at hk; omega)

/-- C5 (as stated) is false: on `[(0,1), (1,2)]` the split index is the argmax
index `1`, yet the downstroke is `[(0,1)]`, not "everything before and
including" index `1` — `points.slice(0, index)` excludes the split sample. -/
theorem claim_C5_counterexample :
    maxIndexJ [((0 : ℚ), (some 1 : JVal)), (1, some 2)] (fun p => some p.1) = some 1 ∧
      (partitionStrokes [((0 : ℚ), (some 1 : JVal)), (1, some 2)]).1 ≠
        [((0 : ℚ), (some 1 : JVal)), (1, some 2)] := by
  decide

/-- C5 amended: the split index is the first argmax of displacement, the
downstroke is everything strictly before it, and the upstroke is everything
from it onward (the argmax sample itself starts the upstroke). -/
theorem claim_C5_amended (points : List JPoint) (hne : points ≠ []) :
    ∃ i, i < points.length ∧
      (∀ k, k < points.length → (points.getD k ZERO).1 ≤ (points.getD i ZERO).1) ∧
      (∀ k, k < i → (points.getD k ZERO).1 < (points.getD i ZERO).1) ∧
      partitionStrokes points = (points.take i, points.drop i) := by
  have hmapne : points.map (·.1) ≠ [] := by
    intro hc
    exact hne (List.map_eq_nil.mp hc)
  obtain ⟨jw, hjw⟩ : ∃ jw, firstArgmaxQ (points.map (·.1)) = some jw := by
    cases hfa : firstArgmaxQ (points.map (·.1)) with
    | none => exact absurd ((firstArgmaxQ_none_iff _).mp hfa) hmapne
    | some jw => exact ⟨jw, rfl⟩
  obtain ⟨j, w⟩ := jw
  obtain ⟨hj, hval, hub, hfst⟩ := firstArgmaxQ_spec (points.map (·.1)) j w hjw
  rw [List.length_map] at hj
  refine ⟨j, hj, ?_, ?_, ?_⟩
  · intro k hk
    have h1 := hub k (by simpa using hk)
    rw [getD_map_fst points k hk] at h1
    rw [getD_map_fst points j hj] at hval
    rw [hval]
    exact h1
  · intro k hk
    have h1 := hfst k hk
    rw [getD_map_fst points k (lt_trans hk hj)] at h1
    rw [getD_map_fst points j hj] at hval
    rw [hval]
    exact h1
  · unfold partitionStrokes
    rw [maxIndexJ_eq_firstArgmax, hjw]
    rfl

theorem claim_C5_witness :
    ∃ i, i < ([((0 : ℚ), (some 1 : JVal)), (1, some 2)]).length ∧
      (∀ k, k < ([((0 : ℚ), (some 1 : JVal)), (1, some 2)]).length →
        (([((0 : ℚ), (some 1 : JVal)), (1, some 2)]).getD k ZERO).1 ≤
          (([((0 : ℚ), (some 1 : JVal)), (1, some 2)]).getD i ZERO).1) ∧
      (∀ k, k < i → (([((0 : ℚ), (some 1 : JVal)), (1, some 2)]).getD k ZERO).1 <
          (([((0 : ℚ), (some 1 : JVal)), (1, some 2)]).getD i ZERO).1) ∧
      partitionStrokes [((0 : ℚ), (some 1 : JVal)), (1, some 2)] =
        (([((0 : ℚ), (some 1 : JVal)), (1, some 2)]).take i,
          ([((0 : ℚ), (some 1 : JVal)), (1, some 2)]).drop i) :=
  claim_C5_amended [((0 : ℚ), (some 1 : JVal)), (1, some 2)] (by decide)

/-! ### Helper lemmas: the extremum scanners emit interior subsequences -/

theorem lmaxAux_sublist (ps : List (JPoint × JPoint)) :
    ∀ cand : Option JPoint,
      (lmaxAux cand ps).Sublist (cand.toList ++ (ps.dropLast).map (·.2)) := by
  induction ps with
  | nil => intro cand; simp [lmaxAux]
  | cons ab rest ih =>
    intro cand
    obtain ⟨a, b⟩ := ab
    simp only [lmaxAux]
    by_cases h1 : jlt a.2 b.2
    · rw [if_pos h1]
      cases rest with
      | nil => simp [lmaxAux]
      | cons r rs =>
        refine (ih (some b)).trans ?_
        simp only [Option.toList_some, List.dropLast_cons₂, List.map_cons]
        exact List.sublist_append_right cand.toList _
    · rw [if_neg h1]
      cases cand with
      | none =>
        cases rest with
        | nil => simp [lmaxAux]
        | cons r rs =>
          refine (ih none).trans ?_
          simp only [Option.toList_none, List.nil_append, List.dropLast_cons₂, List.map_cons]
          exact List.Sublist.cons _ (List.Sublist.refl _)
      | some m =>
        dsimp only
        by_cases h2 : jlt b.2 a.2
        · rw [if_pos h2]
          cases rest with
          | nil => simp [lmaxAux]
          | cons r rs =>
            simp only [Option.toList_some, List.dropLast_cons₂, List.map_cons,
              List.cons_append, List.nil_append]
            refine List.Sublist.cons₂ m ?_
            refine (ih none).trans ?_
            simpa using List.Sublist.cons _ (List.Sublist.refl _)
        · rw [if_neg h2]
          cases rest with
          | nil => simp [lmaxAux]
          | cons r rs =>
            refine (ih (some m)).trans ?_
            simp only [Option.toList_some, List.dropLast_cons₂, List.map_cons,
              List.cons_append, List.nil_append]
            exact List.Sublist.cons₂ m (List.Sublist.cons _ (List.Sublist.refl _))

theorem lminAux_sublist (ps : List (JPoint × JPoint)) :
    ∀ cand : Option JPoint,
      (lminAux cand ps).Sublist (cand.toList ++ (ps.dropLast).map (·.2)) := by
  induction ps with
  | nil => intro cand; simp [lminAux]
  | cons ab rest ih =>
    intro cand
    obtain ⟨a, b⟩ := ab
    simp only [lminAux]
    by_cases h1 : (jlt b.2 a.2 && jtruthy b.2) = true
    · rw [if_pos h1]
      cases rest with
      | nil => simp [lminAux]
      | cons r rs =>
        refine (ih (some b)).trans ?_
        simp only [Option.toList_some, List.dropLast_cons₂, List.map_cons]
        exact List.sublist_append_right cand.toList _
    · rw [if_neg h1]
      cases cand with
      | none =>
        cases rest with
        | nil => simp [lminAux]
        | cons r rs =>
          refine (ih none).trans ?_
          simp only [Option.toList_none, List.nil_append, List.dropLast_cons₂, List.map_cons]
          exact List.Sublist.cons _ (List.Sublist.refl _)
      | some m =>
        dsimp only
        by_cases h2 : jlt a.2 b.2
        · rw [if_pos h2]
          cases rest with
          | nil => simp [lminAux]
          | cons r rs =>
            simp only [Option.toList_some, List.dropLast_cons₂, List.map_cons,
              List.cons_append, List.nil_append]
            refine List.Sublist.cons₂ m ?_
            refine (ih none).trans ?_
            simpa using List.Sublist.cons _ (List.Sublist.refl _)
        · rw [if_neg h2]
          cases rest with
          | nil => simp [lminAux]
          | cons r rs =>
            refine (ih (some m)).trans ?_
            simp only [Option.toList_some, List.dropLast_cons₂, List.map_cons,
              List.cons_append, List.nil_append]
            exact List.Sublist.cons₂ m (List.Sublist.cons _ (List.Sublist.refl _))

theorem pairsConsec_map_snd (l : List α) : (pairsConsec l).map (·.2) = l.tail := by
  unfold pairsConsec
  cases l with
  | nil => rfl
  | cons a as => exact List.map_snd_zip _ _ (by simp [Nat.le_succ])

theorem map_dropLast_comm (f : α → β) (l : List α) :
    (l.dropLast).map f = (l.map f).dropLast := by
  induction l with
  | nil => rfl
  | cons a as ih =>
    cases as with
    | nil => rfl
    | cons b bs => simp [List.dropLast_cons₂, ih]

theorem pairsConsec_dropLast_map_snd (l : List α) :
    ((pairsConsec l).dropLast).map (·.2) = l.tail.dropLast := by
  rw [map_dropLast_comm, pairsConsec_map_snd]

theorem findLocalMaxima_interior (points : List JPoint) :
    (findLocalMaxima points).Sublist (points.tail.dropLast) := by
  have h := lmaxAux_sublist (pairsConsec points) none
  rwa [Option.toList_none, List.nil_append, pairsConsec_dropLast_map_snd] at h

theorem findLocalMinima_interior (points : List JPoint) :
    (findLocalMinima points).Sublist (points.tail.dropLast) := by
  have h := lminAux_sublist (pairsConsec points) none
  rwa [Option.toList_none, List.nil_append, pairsConsec_dropLast_map_snd] at h

theorem interior_sublist (points : List JPoint) :
    (points.tail.dropLast).Sublist points :=
  (List.dropLast_sublist points.tail).trans (List.tail_sublist points)

/-- C9: both extremum scanners return subsequences of the input consisting
only of interior samples — neither the first nor the last input sample is ever
reported, whatever the gradient at the ends. -/
theorem claim_C9_extrema_interior_subsequence (points : List JPoint) :
    (findLocalMaxima points).Sublist points ∧
      (findLocalMinima points).Sublist points ∧
      (findLocalMaxima points).Sublist (points.tail.dropLast) ∧
      (findLocalMinima points).Sublist (points.tail.dropLast) :=
  ⟨(findLocalMaxima_interior points).trans (interior_sublist points),
    (findLocalMinima_interior points).trans (interior_sublist points),
    findLocalMaxima_interior points, findLocalMinima_interior points⟩

theorem lminAux_force_nonzero (ps : List (JPoint × JPoint)) :
    ∀ cand : Option JPoint, (∀ m, cand = some m → m.2 ≠ some 0 ∧ m.2 ≠ none) →
      ∀ p ∈ lminAux cand ps, p.2 ≠ some 0 ∧ p.2 ≠ none := by
  induction ps with
  | nil => intro cand _ p hp; simp [lminAux] at hp
  | cons ab rest ih =>
    intro cand hc p hp
    obtain ⟨a, b⟩ := ab
    simp only [lminAux] at hp
    by_cases h1 : (jlt b.2 a.2 && jtruthy b.2) = true
    · rw [if_pos h1] at hp
      refine ih (some b) ?_ p hp
      intro m hm
      obtain rfl : b = m := Option.some.inj hm
      have h1' := h1
      rw [Bool.and_eq_true] at h1'
      have htr : jtruthy b.2 = true := h1'.2
      cases hb : b.2 with
      | none => rw [hb] at htr; simp [jtruthy] at htr
      | some q =>
        rw [hb] at htr
        simp only [jtruthy, decide_eq_true_eq] at htr
        refine ⟨?_, by simp⟩
        intro hc0
        exact htr (by simpa using hc0)
    · rw [if_neg h1] at hp
      cases cand with
      | none => exact ih none (by intro m hm; cases hm) p hp
      | some m =>
        dsimp only at hp
        by_cases h2 : jlt a.2 b.2
        · rw [if_pos h2] at hp
          rcases List.mem_cons.mp hp with hpm | hp'
          · rw [hpm]; exact hc m rfl
          · exact ih none (by intro m' hm'; cases hm') p hp'
        · rw [if_neg h2] at hp
          exact ih (some m) hc p hp

/-- C10: `findLocalMinima` never reports a point with force exactly `0` — the
candidate condition `forces[i+1] < forces[i] && forces[i+1]` demands a truthy
(non-zero, non-NaN) force — even for a genuine strict local minimum at `0`
(second conjunct), while `findLocalMaxima` has no such restriction and happily
reports a local maximum of force `0` (third conjunct). -/
theorem claim_C10_minima_skip_zero :
    (∀ (points : List JPoint) (p : JPoint), p ∈ findLocalMinima points → p.2 ≠ some 0) ∧
      findLocalMinima [((0 : ℚ), (some 2 : JVal)), (1, some 0), (2, some 2)] = [] ∧
      findLocalMaxima [((0 : ℚ), (some (-1) : JVal)), (1, some 0), (2, some (-1))] =
        [((1 : ℚ), (some 0 : JVal))] :=
  ⟨fun points p hp =>
      (lminAux_force_nonzero (pairsConsec points) none (by intro m hm; cases hm) p hp).1,
    by decide, by decide⟩

/-- C10 witness: a concrete run where the universal part applies — on
`[(0,3),(1,1),(2,4)]` the only reported minimum is `(1,1)`, whose force is not
zero. -/
theorem claim_C10_witness :
    findLocalMinima [((0 : ℚ), (some 3 : JVal)), (1, some 1), (2, some 4)] =
        [((1 : ℚ), (some 1 : JVal))] ∧
      (((1 : ℚ), (some 1 : JVal)) : JPoint).2 ≠ some 0 :=
  ⟨by decide,
    claim_C10_minima_skip_zero.1 [((0 : ℚ), (some 3 : JVal)), (1, some 1), (2, some 4)]
      ((1 : ℚ), (some 1 : JVal)) (by decide)⟩

/-! ### Claims about `getMetadata` -/

/-- C3: a produced record's `isTactile` is exactly the comparison
`tactileMax.force − tactileMin.force ≥ min(bottomOut.force × 0.2, 5)`
(first conjunct), and that comparison is monotone in the peak-to-trough gap
for a fixed bottom-out force (second conjunct). -/
theorem claim_C3_isTactile_iff :
    (∀ (ds : List JPoint) (m : ForceCurveMetadata), getMetadata ds = .ok m →
      (m.isTactile = true ↔
        jge (jsub m.tactileMax.2 m.tactileMin.2) (minTactileForce m.bottomOut.2) = true)) ∧
      (∀ bo g g' : ℚ, g ≤ g' →
        jge (some g) (minTactileForce (some bo)) = true →
        jge (some g') (minTactileForce (some bo)) = true) := by
  constructor
  · intro ds m h
    unfold getMetadata at h
    split at h
    · have hm := Except.ok.inj h
      subst hm
      exact Iff.rfl
    · cases h
  · intro bo g g' hgg h
    simp only [minTactileForce, jmul, jmin, jge, decide_eq_true_eq] at h ⊢
    exact le_trans h hgg

theorem claim_C3_witness :
    ((⟨((0 : ℚ), (some 0 : JVal)), ((0 : ℚ), (some 0 : JVal)),
        ((0 : ℚ), (some 0 : JVal)), true⟩ :
          ForceCurveMetadata).isTactile = true ↔
      jge (jsub (some 0) (some 0)) (minTactileForce (some 0)) = true) ∧
      jge (some 6) (minTactileForce (some 10)) = true :=
  ⟨claim_C3_isTactile_iff.1 [] _ (by decide),
    claim_C3_isTactile_iff.2 10 5 6 (by norm_num) (by decide)⟩

/-- C1 (as stated) is false: `getMetadata` can raise.  On this downstroke a
qualifying local maximum exists (forces rise to `2` then fall), but no local
minimum is ever committed (the final plateau never strictly rises), so
`maxElement(minimaAfter, ...)` is `undefined` and the outer `maxElement`
accessor evaluates `pair[1][1]` on it — a TypeError, modelled as `.error ()`. -/
theorem claim_C1_counterexample :
    getMetadata [((-1 : ℚ), (some 0 : JVal)), (-997/1000, some 2),
        (-994/1000, some 1), (-99/100, some 1)] = .error () := by
  decide

/-- C1 amended: when no qualifying local maximum exists, `getMetadata` indeed
never raises and degrades to the zero-point fallback, but its `isTactile` is
then `0 ≥ min(bottomOut.force × 0.2, 5)` — which is `true` whenever the
bottom-out force is `≤ 0` (e.g. on an empty downstroke) — and when a
qualifying maximum exists with no local minimum after it, `getMetadata`
raises instead of degrading. -/
theorem claim_C1_amended (ds : List JPoint) :
    (tacMaxima ds = [] →
      getMetadata ds =
        .ok ⟨bottomOutPoint ds, ZERO, ZERO,
          jge (some 0) (minTactileForce (bottomOutPoint ds).2)⟩) ∧
      (∀ mx ∈ tacMaxima ds,
        (findLocalMinima ds).filter (fun p => decide (mx.1 < p.1)) = [] →
        getMetadata ds = .error ()) := by
  constructor
  · intro hmax
    have hpairs : tacPairs ds = [] := by
      unfold tacPairs
      rw [hmax]
      rfl
    unfold getMetadata
    rw [hpairs]
    simp only [List.all_nil, if_true, List.map_nil]
    have hbest : maxElementJ ([] : List (JPoint × JPoint))
        (fun pr => jsub pr.1.2 pr.2.2) = none := rfl
    rw [hbest]
    simp [ZERO, jsub]
  · intro mx hmx hfilt
    have hmem : (mx, (none : Option JPoint)) ∈ tacPairs ds := by
      unfold tacPairs
      refine List.mem_map.mpr ⟨mx, hmx, ?_⟩
      rw [hfilt]
      rfl
    have hnotall : ¬ (tacPairs ds).all (fun pr => pr.2.isSome) = true := by
      intro hall
      have := List.all_eq_true.mp hall _ hmem
      simp at this
    unfold getMetadata
    rw [if_neg hnotall]

theorem claim_C1_witness :
    getMetadata ([] : List JPoint) =
      .ok ⟨bottomOutPoint [], ZERO, ZERO,
        jge (some 0) (minTactileForce (bottomOutPoint ([] : List JPoint)).2)⟩ ∧
      getMetadata [((-1 : ℚ), (some 0 : JVal)), (-997/1000, some 2),
        (-994/1000, some 1), (-99/100, some 1)] = .error () :=
  ⟨(claim_C1_amended []).1 (by decide),
    (claim_C1_amended [((-1 : ℚ), (some 0 : JVal)), (-997/1000, some 2),
        (-994/1000, some 1), (-99/100, some 1)]).2
      ((-997/1000 : ℚ), (some 2 : JVal)) (by decide) (by decide)⟩

theorem pairwise_rel_getLast {R : JPoint → JPoint → Prop} (hrefl : ∀ p, R p p) :
    ∀ l : List JPoint, l.Pairwise R → ∀ lp, l.getLast? = some lp → ∀ p ∈ l, R p lp := by
  intro l
  induction l with
  | nil => intro _ lp hlp; cases hlp
  | cons a as ih =>
    intro hp lp hlp p hpmem
    cases as with
    | nil =>
      simp only [List.getLast?_singleton, Option.some.injEq] at hlp
      subst hlp
      rcases List.mem_singleton.mp hpmem with rfl
      exact hrefl p
    | cons b bs =>
      have hlp' : (b :: bs).getLast? = some lp := by
        simpa [List.getLast?_cons_cons] using hlp
      rcases List.mem_cons.mp hpmem with rfl | hpin
      · have hlpmem : lp ∈ b :: bs := by
          obtain ⟨hne, heq⟩ := List.mem_getLast?_eq_getLast (Option.mem_def.mpr hlp')
          rw [heq]
          exact List.getLast_mem hne
        exact (List.pairwise_cons.mp hp).1 lp hlpmem
      · exact ih (List.pairwise_cons.mp hp).2 lp hlp' p hpin

/-- C2: a produced record's bottom-out point is the first original downstroke
sample whose displacement is at least the bottom-out displacement, and that
displacement is the `x` of the last entry of `findLocalMaxima` applied to the
simplified second derivative of the resampled, coarsely-simplified downstroke
(conjuncts 1–2); whenever the acceleration curve is ordered by displacement,
that last entry also has the largest displacement of all its local maxima, so
it is the last local maximum in displacement order (conjunct 3). -/
theorem claim_C2_bottom_out (ds : List JPoint) (m : ForceCurveMetadata)
    (h : getMetadata ds = .ok m) :
    m.bottomOut = (ds.find? (fun p => decide (bottomOutDisplacement ds ≤ p.1))).getD ZERO ∧
      bottomOutDisplacement ds =
        ((findLocalMaxima (simplifyPoints (getDerivative (getDerivative
          (quantize (simplifyPoints ds (1/5)) (1/100)))) (1/10))).getLast?.map (·.1)).getD 0 ∧
      (∀ accel, accel = simplifyPoints (getDerivative (getDerivative
          (quantize (simplifyPoints ds (1/5)) (1/100)))) (1/10) →
        List.Chain' (fun p q : JPoint => p.1 ≤ q.1) accel →
        ∀ p ∈ findLocalMaxima accel, ∀ lp, (findLocalMaxima accel).getLast? = some lp →
          p.1 ≤ lp.1) := by
  refine ⟨?_, rfl, ?_⟩
  · unfold getMetadata at h
    split at h
    · have hm := Except.ok.inj h
      subst hm
      rfl
    · cases h
  · intro accel _ hchain p hpmem lp hlp
    haveI : IsTrans JPoint (fun p q : JPoint => p.1 ≤ q.1) :=
      ⟨fun _ _ _ hab hbc => le_trans hab hbc⟩
    have hsub : (findLocalMaxima accel).Sublist accel :=
      (findLocalMaxima_interior accel).trans (interior_sublist accel)
    have hchain' : List.Chain' (fun p q : JPoint => p.1 ≤ q.1) (findLocalMaxima accel) :=
      hchain.sublist hsub
    have hpw : (findLocalMaxima accel).Pairwise (fun p q : JPoint => p.1 ≤ q.1) :=
      List.chain'_iff_pairwise.mp hchain'
    exact pairwise_rel_getLast (fun p => le_refl p.1) _ hpw lp hlp p hpmem

theorem claim_C2_witness :
    ((⟨((0 : ℚ), (some 0 : JVal)), ((0 : ℚ), (some 0 : JVal)),
        ((0 : ℚ), (some 0 : JVal)), true⟩ :
          ForceCurveMetadata).bottomOut =
        (([] : List JPoint).find?
          (fun p => decide (bottomOutDisplacement [] ≤ p.1))).getD ZERO) ∧
      bottomOutDisplacement ([] : List JPoint) =
        ((findLocalMaxima (simplifyPoints (getDerivative (getDerivative
          (quantize (simplifyPoints ([] : List JPoint) (1/5)) (1/100)))) (1/10))).getLast?.map
            (·.1)).getD 0 ∧
      (∀ accel, accel = simplifyPoints (getDerivative (getDerivative
          (quantize (simplifyPoints ([] : List JPoint) (1/5)) (1/100)))) (1/10) →
        List.Chain' (fun p q : JPoint => p.1 ≤ q.1) accel →
        ∀ p ∈ findLocalMaxima accel, ∀ lp, (findLocalMaxima accel).getLast? = some lp →
          p.1 ≤ lp.1) :=
  claim_C2_bottom_out [] _ (by decide)

/-! ### Claims about the sample loader -/

/-- The loader's field handling as claim C4 words it: displacement and force
parse "as floating point with unparsable or missing fields defaulting to 0". -/
def parseFloatClaimed : Option JVal → ℚ
  | none => 0
  | some none => 0
  | some (some q) => q

/-- `parseCsv` as claim C4 words it: header skip, both fields defaulting to
`0` when missing **or unparsable** (so a malformed row becomes `(0, 0)`), then
the `displacement < 0` filter. -/
def parseCsvClaimed (lines : List CsvRow) : List JPoint :=
  match lines.drop HEADER_LINES with
  | [] => []
  | _hdr :: dataLines =>
    (dataLines.map (fun row =>
      ((parseFloatClaimed row.Displacement, some (parseFloatClaimed row.Force)) : JPoint))).filter
        (fun p => decide (0 ≤ p.1))

/-- C4 (as stated) is false: a present-but-unparsable displacement field does
not default to `0` — `parseFloat` yields NaN, the `row[0] >= 0` filter is then
false, and the row is dropped, not degraded to `(0, …)`. -/
theorem claim_C4_counterexample :
    parseCsv ((List.replicate 6 (⟨none, none⟩ : CsvRow)) ++
        [(⟨some none, some (some 3)⟩ : CsvRow)]) ≠
      parseCsvClaimed ((List.replicate 6 (⟨none, none⟩ : CsvRow)) ++
        [(⟨some none, some (some 3)⟩ : CsvRow)]) := by
  decide

/-- The amended field handling: a missing column defaults to the text `'0'`
(hence the value `0`), while a present-but-unparsable field stays NaN. -/
def parseFloatAmended : Option JVal → JVal
  | none => some 0
  | some v => v

/-- `parseCsv` as amended: after the header skip and the `csvParse` column-name
row, a row is kept exactly when its displacement parses to a number `≥ 0`
(a NaN displacement is discarded with it); an unparsable force is kept as NaN. -/
def parseCsvAmended (lines : List CsvRow) : List JPoint :=
  match lines.drop HEADER_LINES with
  | [] => []
  | _hdr :: dataLines =>
    dataLines.filterMap (fun row =>
      match parseFloatAmended row.Displacement with
      | some x => if 0 ≤ x then some ((x, parseFloatAmended row.Force) : JPoint) else none
      | none => none)

theorem parseFloatAmended_eq_getD (o : Option JVal) :
    parseFloatAmended o = o.getD (some 0) := by
  cases o <;> rfl

/-- C4 amended: the loader drops exactly the first `HEADER_LINES` lines before
the `csvParse` column-name row — their content is irrelevant (first conjunct) —
and each remaining row parses with missing fields defaulting to `0` and
unparsable fields to NaN, keeping the row iff its displacement is a number
`≥ 0` (second conjunct). -/
theorem claim_C4_amended :
    (∀ pre pre' rest : List CsvRow, pre.length = HEADER_LINES → pre'.length = HEADER_LINES →
      parseCsv (pre ++ rest) = parseCsv (pre' ++ rest)) ∧
      (∀ lines : List CsvRow, parseCsv lines = parseCsvAmended lines) := by
  constructor
  · intro pre pre' rest hpre hpre'
    have h1 : (pre ++ rest).drop HEADER_LINES = rest := by
      rw [← hpre]; exact List.drop_left pre rest
    have h2 : (pre' ++ rest).drop HEADER_LINES = rest := by
      rw [← hpre']; exact List.drop_left pre' rest
    unfold parseCsv
    rw [h1, h2]
  · intro lines
    unfold parseCsv parseCsvAmended
    cases lines.drop HEADER_LINES with
    | nil => rfl
    | cons hdr dataLines =>
      dsimp only
      induction dataLines with
      | nil => rfl
      | cons row rows ih =>
        simp only [List.map_cons, List.filterMap_cons]
        rw [parseFloatAmended_eq_getD, parseFloatAmended_eq_getD]
        cases hd : row.Displacement with
        | none =>
          simp only [rowPoint, hd, Option.getD_none]
          rw [ih]
        | some v =>
          cases v with
          | none => simp only [rowPoint, hd, Option.getD_some]; rw [ih]
          | some q =>
            simp only [rowPoint, hd, Option.getD_some]
            by_cases hq : 0 ≤ q
            · simp only [hq, if_pos, if_true]
              rw [ih]
            · simp only [hq, if_neg, if_false]
              rw [ih]

theorem claim_C4_witness :
    parseCsv ((List.replicate 5 (⟨some (some 7), none⟩ : CsvRow)) ++
        ((⟨none, none⟩ : CsvRow) :: [(⟨some (some 2), some (some 9)⟩ : CsvRow)])) =
      parseCsv ((List.replicate 5 (⟨none, some (some 1)⟩ : CsvRow)) ++
        ((⟨none, none⟩ : CsvRow) :: [(⟨some (some 2), some (some 9)⟩ : CsvRow)])) ∧
      parseCsv ((List.replicate 5 (⟨some (some 7), none⟩ : CsvRow)) ++
        ((⟨none, none⟩ : CsvRow) :: [(⟨some (some 2), some (some 9)⟩ : CsvRow)])) =
        parseCsvAmended ((List.replicate 5 (⟨some (some 7), none⟩ : CsvRow)) ++
          ((⟨none, none⟩ : CsvRow) :: [(⟨some (some 2), some (some 9)⟩ : CsvRow)])) :=
  ⟨claim_C4_amended.1 _ _ _ (by decide) (by decide), claim_C4_amended.2 _⟩

/-! ### Claims about the curve simplifier -/

theorem groupKeys_length_le (l : List ℚ) : (groupKeys l).length ≤ l.length := by
  induction l with
  | nil => simp [groupKeys]
  | cons x xs ih =>
    simp only [groupKeys, List.length_cons]
    have := List.length_filter_le (fun k => decide (k ≠ x)) (groupKeys xs)
    omega

theorem groupKeys_mem (l : List ℚ) (a : ℚ) : a ∈ groupKeys l ↔ a ∈ l := by
  induction l with
  | nil => simp [groupKeys]
  | cons x xs ih =>
    simp only [groupKeys, List.mem_cons, List.mem_filter, ih, decide_eq_true_eq]
    by_cases hax : a = x
    · simp [hax]
    · simp [hax]

theorem dedupePoints_map_fst (pts : List JPoint) :
    (dedupePoints pts).map (·.1) = groupKeys (pts.map (·.1)) := by
  unfold dedupePoints groupsByX
  rw [List.map_map, List.map_map]
  exact List.map_id _

theorem dedupePoints_length_le (pts : List JPoint) :
    (dedupePoints pts).length ≤ pts.length := by
  have h1 : (dedupePoints pts).length = ((dedupePoints pts).map (·.1)).length :=
    (List.length_map _ _).symm
  rw [h1, dedupePoints_map_fst]
  calc (groupKeys (pts.map (·.1))).length ≤ (pts.map (·.1)).length :=
        groupKeys_length_le _
    _ = pts.length := List.length_map _ _

theorem maximum_congr (l l' : List ℚ) (h : ∀ a, a ∈ l ↔ a ∈ l') :
    l.maximum = l'.maximum := by
  cases hm : l'.maximum with
  | bot =>
    have hl' : l' = [] := List.maximum_eq_none.mp hm
    subst hl'
    have hl : l = [] := by
      cases l with
      | nil => rfl
      | cons a as => exact absurd ((h a).mp (List.mem_cons_self a as)) (List.not_mem_nil a)
    simp [hl]
  | coe m =>
    have hspec := List.maximum_eq_coe_iff.mp hm
    exact List.maximum_eq_coe_iff.mpr ⟨(h m).mpr hspec.1, fun a ha => hspec.2 a ((h a).mp ha)⟩

theorem minimum_congr (l l' : List ℚ) (h : ∀ a, a ∈ l ↔ a ∈ l') :
    l.minimum = l'.minimum := by
  cases hm : l'.minimum with
  | top =>
    have hl' : l' = [] := List.minimum_eq_none.mp hm
    subst hl'
    have hl : l = [] := by
      cases l with
      | nil => rfl
      | cons a as => exact absurd ((h a).mp (List.mem_cons_self a as)) (List.not_mem_nil a)
    simp [hl]
  | coe m =>
    have hspec := List.minimum_eq_coe_iff.mp hm
    exact List.minimum_eq_coe_iff.mpr ⟨(h m).mpr hspec.1, fun a ha => hspec.2 a ((h a).mp ha)⟩

theorem dpFindMaxGo_some_mem (pts : List JPoint) (pF pL : JPoint) :
    ∀ (is : List Nat) (best : ℚ) (idx : Option Nat) (i : Nat),
      (dpFindMaxGo pts pF pL is best idx).1 = some i → idx = some i ∨ i ∈ is := by
  intro is
  induction is with
  | nil => intro best idx i h; exact Or.inl h
  | cons i' rest ih =>
    intro best idx i h
    simp only [dpFindMaxGo] at h
    cases hsd : getSqSegDist (pts.getD i' ZERO) pF pL with
    | some d =>
      rw [hsd] at h
      dsimp only at h
      by_cases hbd : best < d
      · rw [if_pos hbd] at h
        rcases ih d (some i') i h with hidx | hmem
        · exact Or.inr (List.mem_cons.mpr (Or.inl (Option.some.inj hidx).symm))
        · exact Or.inr (List.mem_cons.mpr (Or.inr hmem))
      · rw [if_neg hbd] at h
        rcases ih best idx i h with hidx | hmem
        · exact Or.inl hidx
        · exact Or.inr (List.mem_cons.mpr (Or.inr hmem))
    | none =>
      rw [hsd] at h
      dsimp only at h
      rcases ih best idx i h with hidx | hmem
      · exact Or.inl hidx
      · exact Or.inr (List.mem_cons.mpr (Or.inr hmem))

theorem dpStep_length_le (pts : List JPoint) (sqTol : ℚ) :
    ∀ (fuel first last : Nat), (dpStep pts sqTol fuel first last).length ≤ last - first - 1 := by
  intro fuel
  induction fuel with
  | zero => intro first last; simp [dpStep]
  | succ fuel ih =>
    intro first last
    simp only [dpStep]
    cases hfind : dpFindMaxGo pts (pts.getD first ZERO) (pts.getD last ZERO)
        (List.range' (first + 1) (last - first - 1)) sqTol none with
    | mk oi best =>
      cases oi with
      | none => simp
      | some i =>
        have hmem : i ∈ List.range' (first + 1) (last - first - 1) := by
          rcases dpFindMaxGo_some_mem pts _ _ _ sqTol none i
              (by rw [hfind]) with hidx | hmem
          · cases hidx
          · exact hmem
        have hbounds := List.mem_range'_1.mp hmem
        obtain ⟨hlow, hhigh⟩ := hbounds
        dsimp only
        by_cases hcut : sqTol < best
        · rw [if_pos hcut]
          have h1 : (if first + 1 < i then dpStep pts sqTol fuel first i else []).length ≤
              i - first - 1 := by
            split
            · exact ih first i
            · simp
          have h2 : (if i + 1 < last then dpStep pts sqTol fuel i last else []).length ≤
              last - i - 1 := by
            split
            · exact ih i last
            · simp
          simp only [List.length_append, List.length_cons]
          omega
        · rw [if_neg hcut]
          simp

theorem simplifyPoints_length_le (pts : List JPoint) (tol : ℚ) :
    (simplifyPoints pts tol).length ≤ pts.length := by
  unfold simplifyPoints
  split
  · exact le_refl _
  · rename_i hgt
    unfold simplifyDouglasPeucker
    have hdp := dpStep_length_le pts (tol * tol) pts.length 0 (pts.length - 1)
    rw [List.length_cons, List.length_append, List.length_cons, List.length_nil]
    omega

theorem simplifyPoints_head? (pts : List JPoint) (tol : ℚ) :
    (simplifyPoints pts tol).head? = pts.head? := by
  unfold simplifyPoints
  split
  · rfl
  · rename_i hgt
    unfold simplifyDouglasPeucker
    cases pts with
    | nil => simp at hgt
    | cons p rest => simp

theorem simplifyPoints_getLast? (pts : List JPoint) (tol : ℚ) :
    (simplifyPoints pts tol).getLast? = pts.getLast? := by
  unfold simplifyPoints
  split
  · rfl
  · rename_i hgt
    have hlt : pts.length - 1 < pts.length := by omega
    unfold simplifyDouglasPeucker
    rw [← List.cons_append, List.getLast?_concat, List.getLast?_eq_getElem?,
      List.getElem?_eq_getElem hlt, List.getD_eq_getElem?_getD,
      List.getElem?_eq_getElem hlt]
    simp

theorem rangeD_head (start stop step : ℚ) (h : 0 < (stop - start) / step) :
    ∃ rest, rangeD start stop step = start :: rest := by
  unfold rangeD
  have hceil : 1 ≤ ⌈(stop - start) / step⌉ := by
    have := Int.ceil_pos.mpr h
    omega
  have hmax : max 0 ⌈(stop - start) / step⌉ = ⌈(stop - start) / step⌉ :=
    max_eq_right (by omega)
  rw [hmax]
  obtain ⟨m, hm⟩ : ∃ m, (⌈(stop - start) / step⌉).toNat = m + 1 :=
    ⟨(⌈(stop - start) / step⌉).toNat - 1, by omega⟩
  rw [hm, List.range_succ_eq_map, List.map_cons]
  have hhd : start + ((0 : ℕ) : ℚ) * step = start := by push_cast; ring
  rw [hhd]
  exact ⟨_, rfl⟩

theorem quantize_head_x (pts : List JPoint) (step : ℚ) (hlen : 2 ≤ pts.length)
    (hstep : 0 < step) (hord : (pts.getD 0 ZERO).1 ≤ (pts.getD (pts.length - 1) ZERO).1) :
    ((quantize pts step).head?).map (·.1) = some ((pts.getD 0 ZERO).1) := by
  have hlt : pts.length - 1 < pts.length := by omega
  have hstopeq : ((pts.getLast?).map (·.1)).getD 0 = (pts.getD (pts.length - 1) ZERO).1 := by
    rw [List.getLast?_eq_getElem?, List.getElem?_eq_getElem hlt,
      List.getD_eq_getElem?_getD, List.getElem?_eq_getElem hlt]
    simp
  have hstarteq : ((pts.head?).map (·.1)).getD 0 = (pts.getD 0 ZERO).1 := by
    cases pts with
    | nil => simp at hlen
    | cons p rest => simp
  unfold quantize
  rw [if_neg (by omega)]
  dsimp only
  obtain ⟨rest, hg⟩ := rangeD_head (((pts.head?).map (·.1)).getD 0)
      ((((pts.getLast?).map (·.1)).getD 0) + step / 2) step (by
        have hss : ((pts.head?).map (·.1)).getD 0 ≤ ((pts.getLast?).map (·.1)).getD 0 := by
          rw [hstarteq, hstopeq]; exact hord
        have hnum : 0 < ((((pts.getLast?).map (·.1)).getD 0) + step / 2) -
            ((pts.head?).map (·.1)).getD 0 := by linarith
        exact div_pos hnum hstep)
  rw [hg]
  simp only [qLoop, List.head?_cons, Option.map_some]
  rw [hstarteq]
  rfl

/-- C7 (as stated) is false: the uniform-grid resampler `quantize` can both
grow the point count and move the maximum `x` — its grid
`range(start, stop + step/2, step)` neither stops at `stop` nor is bounded by
the input count.  On `[(0,0), (0.05,0)]` with the source's default step `0.02`
it produces the 3 points `x ∈ {0, 0.02, 0.04}`. -/
theorem claim_C7_counterexample :
    ¬ ((quantize [((0 : ℚ), (some 0 : JVal)), (1/20, some 0)] (1/50)).length ≤
        ([((0 : ℚ), (some 0 : JVal)), (1/20, some 0)] : List JPoint).length ∧
      ((quantize [((0 : ℚ), (some 0 : JVal)), (1/20, some 0)] (1/50)).map (·.1)).maximum =
        (([((0 : ℚ), (some 0 : JVal)), (1/20, some 0)] : List JPoint).map (·.1)).maximum) := by
  decide

/-- C7 amended: the two reducing operations keep their guarantees —
`dedupePoints` preserves the multiset of distinct `x` values (hence min and
max `x`) and never grows the count; `simplifyPoints` never grows the count and
preserves the first and last points (hence the domain range for x-sorted
strokes).  The resampler `quantize` only guarantees that its grid starts at
the first input `x` (for ≥ 2 points, positive step, first `x` ≤ last `x`);
its count and maximum `x` may exceed the input's. -/
theorem claim_C7_amended :
    (∀ pts : List JPoint, (dedupePoints pts).length ≤ pts.length) ∧
      (∀ pts : List JPoint,
        ((dedupePoints pts).map (·.1)).maximum = (pts.map (·.1)).maximum ∧
        ((dedupePoints pts).map (·.1)).minimum = (pts.map (·.1)).minimum) ∧
      (∀ (pts : List JPoint) (tol : ℚ), (simplifyPoints pts tol).length ≤ pts.length) ∧
      (∀ (pts : List JPoint) (tol : ℚ), (simplifyPoints pts tol).head? = pts.head? ∧
        (simplifyPoints pts tol).getLast? = pts.getLast?) ∧
      (∀ (pts : List JPoint) (step : ℚ), 2 ≤ pts.length → 0 < step →
        (pts.getD 0 ZERO).1 ≤ (pts.getD (pts.length - 1) ZERO).1 →
        ((quantize pts step).head?).map (·.1) = some ((pts.getD 0 ZERO).1)) := by
  refine ⟨dedupePoints_length_le, ?_, simplifyPoints_length_le,
    fun pts tol => ⟨simplifyPoints_head? pts tol, simplifyPoints_getLast? pts tol⟩,
    quantize_head_x⟩
  intro pts
  have hmemiff : ∀ a, a ∈ (dedupePoints pts).map (·.1) ↔ a ∈ pts.map (·.1) := by
    intro a
    rw [dedupePoints_map_fst]
    exact groupKeys_mem _ a
  exact ⟨maximum_congr _ _ hmemiff, minimum_congr _ _ hmemiff⟩

theorem claim_C7_witness :
    ((quantize [((0 : ℚ), (some 0 : JVal)), (1/20, some 0)] (1/50)).head?).map (·.1) =
      some ((([((0 : ℚ), (some 0 : JVal)), (1/20, some 0)] : List JPoint).getD 0 ZERO).1) :=
  claim_C7_amended.2.2.2.2 [((0 : ℚ), (some 0 : JVal)), (1/20, some 0)] (1/50)
    (by decide) (by norm_num) (by decide)

/-! ### Claims about the derivative estimator -/

theorem groupKeys_of_nodup : ∀ l : List ℚ, l.Nodup → groupKeys l = l := by
  intro l
  induction l with
  | nil => intro _; rfl
  | cons x xs ih =>
    intro hnd
    have hx : x ∉ xs := (List.nodup_cons.mp hnd).1
    rw [groupKeys, ih (List.nodup_cons.mp hnd).2]
    congr 1
    apply List.filter_eq_self.mpr
    intro a ha
    simp only [decide_eq_true_eq]
    intro hax
    exact hx (hax ▸ ha)

theorem filter_eq_singleton_of_nodup :
    ∀ pts : List JPoint, (pts.map (·.1)).Nodup →
      ∀ p ∈ pts, pts.filter (fun q => decide (q.1 = p.1)) = [p] := by
  intro pts
  induction pts with
  | nil => intro _ p hp; simp at hp
  | cons a rest ih =>
    intro hnd p hp
    rw [List.map_cons] at hnd
    have hanotin : a.1 ∉ rest.map (·.1) := (List.nodup_cons.mp hnd).1
    rcases List.mem_cons.mp hp with rfl | hprest
    · rw [List.filter_cons_of_pos (by simp)]
      have hrest : rest.filter (fun q => decide (q.1 = p.1)) = [] := by
        apply List.filter_eq_nil.mpr
        intro q hq
        simp only [decide_eq_true_eq]
        intro he
        exact hanotin (he ▸ List.mem_map_of_mem (·.1) hq)
      rw [hrest]
    · have hne : ¬ a.1 = p.1 := by
        intro he
        exact hanotin (he ▸ List.mem_map_of_mem (·.1) hprest)
      rw [List.filter_cons_of_neg (by simpa using hne)]
      exact ih (List.nodup_cons.mp hnd).2 p hprest

theorem dedupePoints_of_nodup (pts : List JPoint) (hnd : (pts.map (·.1)).Nodup) :
    dedupePoints pts = pts.map (fun p => (p.1, some (p.2.getD 0))) := by
  unfold dedupePoints groupsByX
  rw [groupKeys_of_nodup _ hnd, List.map_map, List.map_map]
  apply List.map_congr_left
  intro p hp
  dsimp only [Function.comp]
  rw [filter_eq_singleton_of_nodup pts hnd p hp]
  simp only [List.map_cons, List.map_nil]
  cases hp2 : p.2 with
  | none => simp [jmean]
  | some q => simp [jmean]

theorem pairsConsec_fst_ne :
    ∀ l : List JPoint, (l.map (·.1)).Nodup → ∀ ab ∈ pairsConsec l, ab.1.1 ≠ ab.2.1 := by
  intro l
  induction l with
  | nil => intro _ ab hab; simp [pairsConsec] at hab
  | cons a rest ih =>
    intro hnd ab hab
    cases rest with
    | nil => simp [pairsConsec] at hab
    | cons b bs =>
      have hps : pairsConsec (a :: b :: bs) = (a, b) :: pairsConsec (b :: bs) := rfl
      rw [hps] at hab
      rw [List.map_cons] at hnd
      have hanotin : a.1 ∉ (b :: bs).map (·.1) := (List.nodup_cons.mp hnd).1
      rcases List.mem_cons.mp hab with rfl | hab'
      · intro he
        exact hanotin (he ▸ List.mem_map_of_mem (·.1) (List.mem_cons_self b bs))
      · exact ih (List.nodup_cons.mp hnd).2 ab hab'

theorem getD_isSome_of_all (S : List JVal) (hall : ∀ v ∈ S, v.isSome = true) (j : Nat)
    (hj : j < S.length) : (S.getD j none).isSome = true := by
  rw [List.getD_eq_getElem?_getD, List.getElem?_eq_getElem hj]
  exact hall _ (List.getElem_mem hj)

theorem blurPass_length (S : List JVal) : (blurPass S).length = S.length := by
  simp [blurPass]

theorem blurPass_all_some (S : List JVal) (hall : ∀ v ∈ S, v.isSome = true) :
    ∀ v ∈ blurPass S, v.isSome = true := by
  intro v hv
  unfold blurPass at hv
  rcases List.mem_map.mp hv with ⟨i, hi, rfl⟩
  have hilen : i < S.length := List.mem_range.mp hi
  obtain ⟨q1, hq1⟩ := Option.isSome_iff_exists.mp (getD_isSome_of_all S hall i hilen)
  obtain ⟨q2, hq2⟩ := Option.isSome_iff_exists.mp (getD_isSome_of_all S hall (i - 1) (by omega))
  obtain ⟨q3, hq3⟩ := Option.isSome_iff_exists.mp
    (getD_isSome_of_all S hall (min (S.length - 1) (i + 1)) (by omega))
  rw [hq1, hq2, hq3]
  simp only [jadd, jmul, jdiv]
  rw [if_neg (by norm_num)]
  rfl

theorem blur3_length (S : List JVal) : (blur3 S).length = S.length := by
  unfold blur3
  rw [blurPass_length, blurPass_length, blurPass_length]

theorem blur3_all_some (S : List JVal) (hall : ∀ v ∈ S, v.isSome = true) :
    ∀ v ∈ blur3 S, v.isSome = true :=
  blurPass_all_some _ (blurPass_all_some _ (blurPass_all_some _ hall))

theorem diffs_all_some (l : List JPoint) (hnd : (l.map (·.1)).Nodup)
    (hall : ∀ p ∈ l, p.2.isSome = true) :
    ∀ v ∈ (pairsConsec l).map (fun ab => jdiv (jsub ab.2.2 ab.1.2) (some (ab.2.1 - ab.1.1))),
      v.isSome = true := by
  intro v hv
  rcases List.mem_map.mp hv with ⟨ab, hab, rfl⟩
  have hne := pairsConsec_fst_ne l hnd ab hab
  obtain ⟨a, b⟩ := ab
  obtain ⟨ha, hb⟩ := List.mem_zip hab
  have hb' : b ∈ l := (List.tail_sublist l).subset hb
  obtain ⟨qa, hqa⟩ := Option.isSome_iff_exists.mp (hall a ha)
  obtain ⟨qb, hqb⟩ := Option.isSome_iff_exists.mp (hall b hb')
  dsimp only
  rw [hqa, hqb]
  simp only [jsub, jdiv]
  rw [if_neg (sub_ne_zero.mpr (Ne.symm hne))]
  rfl

theorem getDerivative_unfold (points : List JPoint) :
    getDerivative points =
      (dedupePoints points).enum.map (fun ip => (ip.2.1,
        ((blur3 ((pairsConsec (dedupePoints points)).map
          (fun ab => jdiv (jsub ab.2.2 ab.1.2) (some (ab.2.1 - ab.1.1))))).get? ip.1).getD
            none)) :=
  rfl

theorem enum_map_x (l : List JPoint) (g : Nat × JPoint → JVal) :
    (l.enum.map (fun ip => (ip.2.1, g ip))).map (·.1) = l.map (·.1) := by
  rw [List.map_map]
  have h2 := congrArg (List.map (fun p : JPoint => p.1)) (List.enum_map_snd l)
  rw [List.map_map] at h2
  exact h2

/-- C8 (as stated) is false: on the two-point sequence `[(0,0), (1,1)]` (two
distinct x values) the output has length `2`, not `2 - 1` — the source maps
over the full deduplicated point list and pairs the final `x` with the
out-of-range slot `result[n-1]`, i.e. `undefined`. -/
theorem claim_C8_counterexample :
    (getDerivative [((0 : ℚ), (some 0 : JVal)), (1, some 1)]).length = 2 ∧
      ¬ (getDerivative [((0 : ℚ), (some 0 : JVal)), (1, some 1)]).length =
        ([((0 : ℚ), (some 0 : JVal)), (1, some 1)] : List JPoint).length - 1 := by
  decide

/-- C8 amended: on a sequence with pairwise-distinct x values the output has
the *same* length as the input, its x values are exactly the input's x values
in order (each derivative is indexed at the left point of its pair), every
entry except the last carries a defined (smoothed) derivative value, and the
final entry pairs the last x with the undefined slot. -/
theorem claim_C8_amended (pts : List JPoint) (hnd : (pts.map (·.1)).Nodup) :
    (getDerivative pts).length = pts.length ∧
      (getDerivative pts).map (·.1) = pts.map (·.1) ∧
      (∀ i, i + 1 < pts.length → ∃ x q, (getDerivative pts).get? i = some (x, some q)) ∧
      (pts ≠ [] → ∃ x, (getDerivative pts).getLast? = some (x, none)) := by
  have hdd : dedupePoints pts = pts.map (fun p => (p.1, some (p.2.getD 0))) :=
    dedupePoints_of_nodup pts hnd
  have hddlen : (dedupePoints pts).length = pts.length := by
    rw [hdd, List.length_map]
  have hddfst : (dedupePoints pts).map (·.1) = pts.map (·.1) := by
    rw [hdd, List.map_map]
    rfl
  have hddall : ∀ p ∈ dedupePoints pts, p.2.isSome = true := by
    intro p hp
    rw [hdd] at hp
    rcases List.mem_map.mp hp with ⟨p0, _, rfl⟩
    rfl
  have hddnd : ((dedupePoints pts).map (·.1)).Nodup := by rw [hddfst]; exact hnd
  have hblen : (blur3 ((pairsConsec (dedupePoints pts)).map
      (fun ab => jdiv (jsub ab.2.2 ab.1.2) (some (ab.2.1 - ab.1.1))))).length =
        pts.length - 1 := by
    rw [blur3_length, List.length_map]
    unfold pairsConsec
    rw [List.length_zip, List.length_tail, hddlen]
    omega
  have hball : ∀ v ∈ blur3 ((pairsConsec (dedupePoints pts)).map
      (fun ab => jdiv (jsub ab.2.2 ab.1.2) (some (ab.2.1 - ab.1.1)))), v.isSome = true :=
    blur3_all_some _ (diffs_all_some _ hddnd hddall)
  refine ⟨?_, ?_, ?_, ?_⟩
  · rw [getDerivative_unfold, List.length_map, List.enum_length, hddlen]
  · rw [getDerivative_unfold, enum_map_x, hddfst]
  · intro i hi
    have hilen : i < (dedupePoints pts).length := by omega
    obtain ⟨p, hp⟩ : ∃ p, (dedupePoints pts).get? i = some p := by
      rw [List.get?_eq_get hilen]
      exact ⟨_, rfl⟩
    rw [getDerivative_unfold, List.get?_map, List.get?_enum, hp]
    have hbi : i < (blur3 ((pairsConsec (dedupePoints pts)).map
        (fun ab => jdiv (jsub ab.2.2 ab.1.2) (some (ab.2.1 - ab.1.1))))).length := by
      rw [hblen]; omega
    obtain ⟨v, hv⟩ : ∃ v, (blur3 ((pairsConsec (dedupePoints pts)).map
        (fun ab => jdiv (jsub ab.2.2 ab.1.2) (some (ab.2.1 - ab.1.1))))).get? i = some v := by
      rw [List.get?_eq_get hbi]
      exact ⟨_, rfl⟩
    obtain ⟨q, hq⟩ := Option.isSome_iff_exists.mp
      (hball v (List.get?_mem hv))
    refine ⟨p.1, q, ?_⟩
    simp only [Option.map_some']
    rw [hv]
    simp [hq]
  · intro hne
    have hpos : 0 < pts.length := List.length_pos.mpr hne
    have hglen : (getDerivative pts).length = pts.length := by
      rw [getDerivative_unfold, List.length_map, List.enum_length, hddlen]
    have hlt : pts.length - 1 < (dedupePoints pts).length := by omega
    obtain ⟨p, hp⟩ : ∃ p, (dedupePoints pts).get? (pts.length - 1) = some p := by
      rw [List.get?_eq_get hlt]
      exact ⟨_, rfl⟩
    refine ⟨p.1, ?_⟩
    rw [List.getLast?_eq_getElem?, hglen]
    rw [← List.get?_eq_getElem?]
    rw [getDerivative_unfold, List.get?_map, List.get?_enum, hp]
    simp only [Option.map_some']
    have hnone : (blur3 ((pairsConsec (dedupePoints pts)).map
        (fun ab => jdiv (jsub ab.2.2 ab.1.2) (some (ab.2.1 - ab.1.1))))).get?
          (pts.length - 1) = none := by
      apply List.get?_eq_none.mpr
      rw [hblen]
    rw [hnone]
    rfl

theorem claim_C8_witness :
    (getDerivative [((0 : ℚ), (some 0 : JVal)), (1, some 1)]).length =
        ([((0 : ℚ), (some 0 : JVal)), (1, some 1)] : List JPoint).length ∧
      (getDerivative [((0 : ℚ), (some 0 : JVal)), (1, some 1)]).map (·.1) =
        ([((0 : ℚ), (some 0 : JVal)), (1, some 1)] : List JPoint).map (·.1) ∧
      (∀ i, i + 1 < ([((0 : ℚ), (some 0 : JVal)), (1, some 1)] : List JPoint).length →
        ∃ x q, (getDerivative [((0 : ℚ), (some 0 : JVal)), (1, some 1)]).get? i =
          some (x, some q)) ∧
      (([((0 : ℚ), (some 0 : JVal)), (1, some 1)] : List JPoint) ≠ [] →
        ∃ x, (getDerivative [((0 : ℚ), (some 0 : JVal)), (1, some 1)]).getLast? =
          some (x, none)) :=
  claim_C8_amended [((0 : ℚ), (some 0 : JVal)), (1, some 1)] (by decide)

end ForceCurves
